import Mathlib

/-!
Verification of `safe_int`, a saturating signed integer with infinities and a
NaN sentinel.

Shallow embedding of `include/range/v3/utility/safe_int.hpp`.

The template parameter `SignedInteger` is a two's-complement signed type of
`bits` bits.  Its values are modelled as `Int`s in the interval
`[T_min bits, T_max bits]`; every native arithmetic operation of the source is
followed by `wrapT`, the two's-complement reduction into that interval (the
identity whenever the mathematical result is representable).
-/

namespace SafeInt

/-! ## The underlying signed type -/

/-- Half of the modulus of a signed type of `bits` bits, `2 ^ (bits - 1)`. -/
def half (bits : Nat) : Int := ((2 ^ (bits - 1) : Nat) : Int)

/-- The constant `std::numeric_limits<SignedInteger>::max()`. -/
def T_max (bits : Nat) : Int := half bits - 1

/-- The constant `std::numeric_limits<SignedInteger>::min()`. -/
def T_min (bits : Nat) : Int := -half bits

/-- Holds when `v` is a value of the underlying signed type. -/
def IsT (bits : Nat) (v : Int) : Prop := T_min bits ≤ v ∧ v ≤ T_max bits

instance (bits : Nat) (v : Int) : Decidable (IsT bits v) := by
  unfold IsT; infer_instance

/-- Two's-complement reduction of a mathematical result into the signed type. -/
def wrapT (bits : Nat) (v : Int) : Int :=
  (v + half bits) % (2 * half bits) - half bits

/-- Native division of the signed type: the quotient truncated toward zero. -/
def T_div (bits : Nat) (a b : Int) : Int := wrapT bits (Int.tdiv a b)

/-! ## The class `safe_int<SignedInteger>` -/

/-- The static member `pos_inf_ = numeric_limits<SignedInteger>::max()`. -/
def pos_inf_ (bits : Nat) : Int := T_max bits

/-- The static member `neg_inf_ = -numeric_limits<SignedInteger>::max()`. -/
def neg_inf_ (bits : Nat) : Int := wrapT bits (-T_max bits)

/-- The static member `NaN_ = numeric_limits<SignedInteger>::min()`. -/
def NaN_ (bits : Nat) : Int := T_min bits

/-- An object of class `safe_int`: its only data member is `i_`. -/
structure safe_int (bits : Nat) where
  /-- The data member `SignedInteger i_`. -/
  i_ : Int
deriving DecidableEq

namespace safe_int

variable {bits : Nat}

/-- The converting constructor `safe_int(SignedInteger i)`:
`i_(i < neg_inf_ ? neg_inf_ : i)`. -/
def ctor (bits : Nat) (i : Int) : safe_int bits :=
  ⟨if i < neg_inf_ bits then neg_inf_ bits else i⟩

/-- The accessor `get()`. -/
def get (x : safe_int bits) : Int := x.i_

/-- The factory `inf()`: `return pos_inf_;`, converted by the constructor. -/
def inf (bits : Nat) : safe_int bits := ctor bits (pos_inf_ bits)

/-- The factory `NaN()`: `return NaN_;`, converted by the constructor. -/
def NaN (bits : Nat) : safe_int bits := ctor bits (NaN_ bits)

/-- The query `is_finite()`: `i_ < pos_inf_ && i_ > neg_inf_`. -/
def is_finite (x : safe_int bits) : Bool :=
  decide (x.i_ < pos_inf_ bits) && decide (x.i_ > neg_inf_ bits)

/-- The query `is_NaN()`: `i_ == NaN_`. -/
def is_NaN (x : safe_int bits) : Bool := x.i_ == NaN_ bits

/-- Unary `operator-()`: `return i_ == NaN_ ? NaN_ : -i_;`, converted by the
constructor. -/
def op_neg (x : safe_int bits) : safe_int bits :=
  ctor bits (if x.i_ == NaN_ bits then NaN_ bits else wrapT bits (-x.i_))

/-- Pre-increment `operator++()`, as the new state of the object. -/
def op_preinc (x : safe_int bits) : safe_int bits :=
  if x.i_ = pos_inf_ bits then x
  else if x.i_ = neg_inf_ bits then x
  else if x.i_ = NaN_ bits then x
  else ⟨wrapT bits (x.i_ + 1)⟩

/-- Pre-decrement `operator--()`, as the new state of the object. -/
def op_predec (x : safe_int bits) : safe_int bits :=
  if x.i_ = pos_inf_ bits then x
  else if x.i_ = neg_inf_ bits then x
  else if x.i_ = NaN_ bits then x
  else ⟨wrapT bits (x.i_ - 1)⟩

/-- The friend `operator==`:
`left.i_ != NaN_ && right.i_ != NaN_ && left.i_ == right.i_`. -/
def op_eq (left right : safe_int bits) : Bool :=
  left.i_ != NaN_ bits && right.i_ != NaN_ bits && left.i_ == right.i_

/-- The friend `operator!=`:
`left.i_ == NaN_ || right.i_ == NaN_ || left.i_ != right.i_`. -/
def op_ne (left right : safe_int bits) : Bool :=
  left.i_ == NaN_ bits || right.i_ == NaN_ bits || left.i_ != right.i_

/-- The friend `operator<`:
`left != NaN() && right != NaN() && left.i_ < right.i_`. -/
def op_lt (left right : safe_int bits) : Bool :=
  op_ne left (NaN bits) && op_ne right (NaN bits) && decide (left.i_ < right.i_)

/-- The friend `operator<=`:
`left != NaN() && right != NaN() && left.i_ <= right.i_`. -/
def op_le (left right : safe_int bits) : Bool :=
  op_ne left (NaN bits) && op_ne right (NaN bits) && decide (left.i_ ≤ right.i_)

/-- The friend `operator>`:
`left != NaN() && right != NaN() && left.i_ > right.i_`. -/
def op_gt (left right : safe_int bits) : Bool :=
  op_ne left (NaN bits) && op_ne right (NaN bits) && decide (left.i_ > right.i_)

/-- The friend `operator>=`:
`left != NaN() && right != NaN() && left.i_ >= right.i_`. -/
def op_ge (left right : safe_int bits) : Bool :=
  op_ne left (NaN bits) && op_ne right (NaN bits) && decide (left.i_ ≥ right.i_)

/-- The friend `operator+`, the chain of conditional expressions of the
source in the same order. -/
def op_add (left right : safe_int bits) : safe_int bits :=
  if op_eq right (NaN bits) || op_eq left (NaN bits) then NaN bits
  else if !left.is_finite && !right.is_finite then
    (if op_eq left right then left else NaN bits)
  else if !left.is_finite && right.is_finite then left
  else if left.is_finite && !right.is_finite then right
  else if decide (right.i_ ≥ 0)
      && decide (left.i_ > wrapT bits (pos_inf_ bits - right.i_)) then inf bits
  else if decide (right.i_ < 0)
      && decide (left.i_ < wrapT bits (neg_inf_ bits - right.i_)) then op_neg (inf bits)
  else ctor bits (wrapT bits (left.i_ + right.i_))

/-- The friend binary `operator-`: `return left + -right;`. -/
def op_sub (left right : safe_int bits) : safe_int bits :=
  op_add left (op_neg right)

/-- The member `operator+=`, as the new state of the object. -/
def op_add_assign (self that : safe_int bits) : safe_int bits := op_add self that

/-- The member `operator-=`, as the new state of the object. -/
def op_sub_assign (self that : safe_int bits) : safe_int bits := op_sub self that

/-- The friend `operator/`, the chain of conditional expressions of the
source in the same order; the literal `0` is converted by the constructor. -/
def op_div (left right : safe_int bits) : safe_int bits :=
  if left.is_NaN || right.is_NaN then NaN bits
  else if op_eq left (ctor bits 0) && op_eq right (ctor bits 0) then NaN bits
  else if left.is_finite && op_eq right (ctor bits 0) then
    (if op_lt left (ctor bits 0) then op_neg (inf bits) else inf bits)
  else if left.is_finite && !right.is_finite then
    (if op_lt left (ctor bits 0) then op_neg right else right)
  else if !left.is_finite && op_eq right (ctor bits 0) then left
  else if !left.is_finite && right.is_finite then
    (if op_lt right (ctor bits 0) then op_neg left else left)
  else ctor bits (T_div bits left.i_ right.i_)

/-- The member `operator/=`, as the new state of the object. -/
def op_div_assign (self that : safe_int bits) : safe_int bits := op_div self that

/-- Post-increment `operator++(int)`: the value of `tmp` (the object before
`++*this`) paired with the new state of the object. -/
def op_postinc (x : safe_int bits) : safe_int bits × safe_int bits :=
  (x, op_preinc x)

/-- Post-decrement `operator--(int)`: the value of `tmp` (the object before
`--*this`) paired with the new state of the object. -/
def op_postdec (x : safe_int bits) : safe_int bits × safe_int bits :=
  (x, op_predec x)

/-! ### Evaluation with explicit native operations

The same operators, with every native arithmetic operation of the underlying
type made fallible: `none` stands for an operation whose mathematical result
is not representable, a division by zero, or `min(T) / -1`.  Comparisons and
the constructor perform no arithmetic.  The operands of `&&` are evaluated
left to right, the right one only when the left one is true. -/

/-- The outcome of a native operation with mathematical result `v`. -/
def T_chk (bits : Nat) (v : Int) : Option Int :=
  if IsT bits v then some v else none

/-- The outcome of the native division `a / b`. -/
def T_div_chk (bits : Nat) (a b : Int) : Option Int :=
  if b = 0 ∨ (a = T_min bits ∧ b = -1) then none else T_chk bits (Int.tdiv a b)

/-- Short-circuit `a && b`, where evaluating `b` may fail. -/
def sc_and (a : Bool) (b : Option Bool) : Option Bool :=
  if a then b else some false

/-- Unary `operator-()` with the native negation `-i_` made explicit. -/
def op_neg_chk (x : safe_int bits) : Option (safe_int bits) :=
  if x.i_ == NaN_ bits then some (ctor bits (NaN_ bits))
  else (T_chk bits (-x.i_)).map (ctor bits)

/-- Pre-increment with the native `++i_` made explicit. -/
def op_preinc_chk (x : safe_int bits) : Option (safe_int bits) :=
  if x.i_ = pos_inf_ bits then some x
  else if x.i_ = neg_inf_ bits then some x
  else if x.i_ = NaN_ bits then some x
  else (T_chk bits (x.i_ + 1)).map safe_int.mk

/-- Pre-decrement with the native `--i_` made explicit. -/
def op_predec_chk (x : safe_int bits) : Option (safe_int bits) :=
  if x.i_ = pos_inf_ bits then some x
  else if x.i_ = neg_inf_ bits then some x
  else if x.i_ = NaN_ bits then some x
  else (T_chk bits (x.i_ - 1)).map safe_int.mk

/-- The friend `operator+` with the native `pos_inf_ - right.i_`,
`neg_inf_ - right.i_`, `-i_` (in `-inf()`) and `left.i_ + right.i_` made
explicit. -/
def op_add_chk (left right : safe_int bits) : Option (safe_int bits) :=
  if op_eq right (NaN bits) || op_eq left (NaN bits) then some (NaN bits)
  else if !left.is_finite && !right.is_finite then
    some (if op_eq left right then left else NaN bits)
  else if !left.is_finite && right.is_finite then some left
  else if left.is_finite && !right.is_finite then some right
  else
    (sc_and (decide (right.i_ ≥ 0))
      ((T_chk bits (pos_inf_ bits - right.i_)).map fun d => decide (left.i_ > d))).bind
    fun c1 =>
      if c1 then some (inf bits)
      else
        (sc_and (decide (right.i_ < 0))
          ((T_chk bits (neg_inf_ bits - right.i_)).map fun d => decide (left.i_ < d))).bind
        fun c2 =>
          if c2 then op_neg_chk (inf bits)
          else (T_chk bits (left.i_ + right.i_)).map (ctor bits)

/-- The friend binary `operator-`, `left + -right`, with native operations
made explicit. -/
def op_sub_chk (left right : safe_int bits) : Option (safe_int bits) :=
  (op_neg_chk right).bind fun r => op_add_chk left r

/-- The friend `operator/` with the native `-i_` and `left.i_ / right.i_`
made explicit. -/
def op_div_chk (left right : safe_int bits) : Option (safe_int bits) :=
  if left.is_NaN || right.is_NaN then some (NaN bits)
  else if op_eq left (ctor bits 0) && op_eq right (ctor bits 0) then some (NaN bits)
  else if left.is_finite && op_eq right (ctor bits 0) then
    (if op_lt left (ctor bits 0) then op_neg_chk (inf bits) else some (inf bits))
  else if left.is_finite && !right.is_finite then
    (if op_lt left (ctor bits 0) then op_neg_chk right else some right)
  else if !left.is_finite && op_eq right (ctor bits 0) then some left
  else if !left.is_finite && right.is_finite then
    (if op_lt right (ctor bits 0) then op_neg_chk left else some left)
  else (T_div_chk bits left.i_ right.i_).map (ctor bits)

end safe_int

/-! ## The specialisation `std::numeric_limits<safe_int<T>>` -/

namespace numeric_limits

/-- The member `min()`: `safe_int{-numeric_limits<T>::max() + 1}`. -/
def min (bits : Nat) : safe_int bits :=
  safe_int.ctor bits (wrapT bits (wrapT bits (-T_max bits) + 1))

/-- The member `max()`: `safe_int{numeric_limits<T>::max() - 1}`. -/
def max (bits : Nat) : safe_int bits :=
  safe_int.ctor bits (wrapT bits (T_max bits - 1))

/-- The member `lowest()`: `return min();`. -/
def lowest (bits : Nat) : safe_int bits := numeric_limits.min bits

/-- The constant `has_infinity`. -/
def has_infinity : Bool := true

/-- The member `infinity()`: `return safe_int::inf();`. -/
def infinity (bits : Nat) : safe_int bits := safe_int.inf bits

/-- The constant `has_quiet_NaN`. -/
def has_quiet_NaN : Bool := true

/-- The member `quiet_NaN()`: `return safe_int::NaN();`. -/
def quiet_NaN (bits : Nat) : safe_int bits := safe_int.NaN bits

end numeric_limits

/-- The values obtainable through the public interface: from raw integers of
the underlying type by the constructor, from the factories, and from
obtainable values by the operators and their assignment forms. -/
inductive Reachable (bits : Nat) : safe_int bits → Prop
  | ctor (i : Int) : IsT bits i → Reachable bits (safe_int.ctor bits i)
  | inf : Reachable bits (safe_int.inf bits)
  | NaN : Reachable bits (safe_int.NaN bits)
  | neg (x : safe_int bits) : Reachable bits x → Reachable bits (safe_int.op_neg x)
  | preinc (x : safe_int bits) : Reachable bits x → Reachable bits (safe_int.op_preinc x)
  | predec (x : safe_int bits) : Reachable bits x → Reachable bits (safe_int.op_predec x)
  | postinc (x : safe_int bits) : Reachable bits x →
      Reachable bits (safe_int.op_postinc x).2
  | postdec (x : safe_int bits) : Reachable bits x →
      Reachable bits (safe_int.op_postdec x).2
  | add (x y : safe_int bits) : Reachable bits x → Reachable bits y →
      Reachable bits (safe_int.op_add x y)
  | sub (x y : safe_int bits) : Reachable bits x → Reachable bits y →
      Reachable bits (safe_int.op_sub x y)
  | div (x y : safe_int bits) : Reachable bits x → Reachable bits y →
      Reachable bits (safe_int.op_div x y)
  | add_assign (x y : safe_int bits) : Reachable bits x → Reachable bits y →
      Reachable bits (safe_int.op_add_assign x y)
  | sub_assign (x y : safe_int bits) : Reachable bits x → Reachable bits y →
      Reachable bits (safe_int.op_sub_assign x y)
  | div_assign (x y : safe_int bits) : Reachable bits x → Reachable bits y →
      Reachable bits (safe_int.op_div_assign x y)

/-- The saturation of an exact result `v` to the interval `[lo, hi]`. -/
def clamp (lo hi v : Int) : Int := max lo (min v hi)

open safe_int

/-! ## Facts about the underlying signed type -/

theorem half_pos (bits : Nat) : 1 ≤ half bits := by
  unfold half
  exact_mod_cast Nat.one_le_two_pow

theorem two_le_half {bits : Nat} (h : 2 ≤ bits) : 2 ≤ half bits := by
  unfold half
  have h2 : 2 ^ 1 ≤ 2 ^ (bits - 1) := Nat.pow_le_pow_right (by decide) (by omega)
  exact_mod_cast h2

theorem eight_le_half {bits : Nat} (h : 4 ≤ bits) : 8 ≤ half bits := by
  unfold half
  have h2 : 2 ^ 3 ≤ 2 ^ (bits - 1) := Nat.pow_le_pow_right (by decide) (by omega)
  exact_mod_cast h2

theorem sixteen_le_half {bits : Nat} (h : 5 ≤ bits) : 16 ≤ half bits := by
  unfold half
  have h2 : 2 ^ 4 ≤ 2 ^ (bits - 1) := Nat.pow_le_pow_right (by decide) (by omega)
  exact_mod_cast h2

theorem wrapT_id {bits : Nat} {v : Int} (h1 : -half bits ≤ v) (h2 : v < half bits) :
    wrapT bits v = v := by
  unfold wrapT
  rw [Int.emod_eq_of_lt (by omega) (by omega)]
  omega

theorem neg_inf_eq (bits : Nat) : neg_inf_ bits = 1 - half bits := by
  have hH := half_pos bits
  unfold neg_inf_ T_max
  rw [wrapT_id (by omega) (by omega)]
  omega

/-! ## The stored value of each constructor and factory -/

theorem pos_inf_eq (bits : Nat) : pos_inf_ bits = half bits - 1 := rfl

theorem NaN_eq (bits : Nat) : NaN_ bits = -half bits := rfl

theorem ctor_i (bits : Nat) (i : Int) :
    (ctor bits i).i_ = if i < 1 - half bits then 1 - half bits else i := by
  simp only [ctor, neg_inf_eq]

theorem inf_i (bits : Nat) : (inf bits).i_ = half bits - 1 := by
  have hH := half_pos bits
  rw [inf, ctor_i, pos_inf_eq, if_neg (by omega)]

theorem NaN_i (bits : Nat) : (NaN bits).i_ = 1 - half bits := by
  have hH := half_pos bits
  rw [NaN, ctor_i, NaN_eq, if_pos (by omega)]

theorem op_neg_i {bits : Nat} (x : safe_int bits) (h1 : -half bits < x.i_)
    (h2 : x.i_ < half bits) : (op_neg x).i_ = -x.i_ := by
  have hx : (x.i_ == NaN_ bits) = false := by
    rw [NaN_eq, beq_eq_false_iff_ne]; omega
  rw [op_neg, hx, ctor_i, wrapT_id (by omega) (by omega)]
  simp only [Bool.false_eq_true, if_false]
  rw [if_neg (by omega)]

theorem neg_inf_i (bits : Nat) : (op_neg (inf bits)).i_ = 1 - half bits := by
  have hH := half_pos bits
  rw [op_neg_i _ (by rw [inf_i]; omega) (by rw [inf_i]; omega), inf_i]
  omega

/-! ## The queries and comparisons, in terms of stored values -/

theorem is_finite_iff {bits : Nat} (x : safe_int bits) :
    x.is_finite = true ↔ 1 - half bits < x.i_ ∧ x.i_ < half bits - 1 := by
  simp only [is_finite, pos_inf_eq, neg_inf_eq, Bool.and_eq_true, decide_eq_true_eq]
  omega

theorem is_NaN_iff {bits : Nat} (x : safe_int bits) :
    x.is_NaN = true ↔ x.i_ = -half bits := by
  simp only [is_NaN, NaN_eq, beq_iff_eq]

theorem op_eq_iff {bits : Nat} (l r : safe_int bits) :
    op_eq l r = true ↔ l.i_ ≠ -half bits ∧ r.i_ ≠ -half bits ∧ l.i_ = r.i_ := by
  simp only [op_eq, NaN_eq, Bool.and_eq_true, bne_iff_ne, beq_iff_eq, ne_eq, and_assoc]

theorem op_ne_iff {bits : Nat} (l r : safe_int bits) :
    op_ne l r = true ↔ l.i_ = -half bits ∨ r.i_ = -half bits ∨ l.i_ ≠ r.i_ := by
  simp only [op_ne, NaN_eq, Bool.or_eq_true, bne_iff_ne, beq_iff_eq, ne_eq, or_assoc]

theorem op_eq_NaN_iff {bits : Nat} (x : safe_int bits) :
    op_eq x (NaN bits) = true ↔ x.i_ = 1 - half bits := by
  have hH := half_pos bits
  rw [op_eq_iff, NaN_i]
  omega

theorem op_ne_NaN_iff {bits : Nat} (x : safe_int bits) :
    op_ne x (NaN bits) = true ↔ x.i_ ≠ 1 - half bits := by
  have hH := half_pos bits
  rw [op_ne_iff, NaN_i]
  omega

/-! ## Addition and subtraction of finite values -/

theorem op_add_finite_i {bits : Nat} (a b : safe_int bits)
    (ha : a.is_finite = true) (hb : b.is_finite = true) :
    (op_add a b).i_ = clamp (1 - half bits) (half bits - 1) (a.i_ + b.i_) := by
  have ha1 := (is_finite_iff a).1 ha
  have hb1 := (is_finite_iff b).1 hb
  have han : op_eq a (NaN bits) = false := by
    rw [← Bool.not_eq_true, op_eq_NaN_iff]; omega
  have hbn : op_eq b (NaN bits) = false := by
    rw [← Bool.not_eq_true, op_eq_NaN_iff]; omega
  unfold op_add
  simp only [ha, hb, han, hbn, Bool.or_self, Bool.false_eq_true, if_false, Bool.not_true,
    Bool.and_self, Bool.and_false, Bool.false_and, Bool.and_eq_true, decide_eq_true_eq,
    pos_inf_eq, neg_inf_eq, clamp]
  by_cases hb0 : 0 ≤ b.i_
  · rw [wrapT_id (by omega) (by omega)]
    by_cases h1 : a.i_ > half bits - 1 - b.i_
    · rw [if_pos ⟨hb0, h1⟩, inf_i]; omega
    · rw [if_neg (fun h => h1 h.2), if_neg (fun h => by omega), ctor_i,
        wrapT_id (by omega) (by omega)]
      split_ifs <;> omega
  · rw [if_neg (fun h => hb0 h.1), wrapT_id (by omega) (by omega)]
    by_cases h1 : a.i_ < 1 - half bits - b.i_
    · rw [if_pos ⟨by omega, h1⟩, neg_inf_i]; omega
    · rw [if_neg (fun h => h1 h.2), ctor_i, wrapT_id (by omega) (by omega)]
      split_ifs <;> omega

theorem op_neg_finite {bits : Nat} (b : safe_int bits) (hb : b.is_finite = true) :
    (op_neg b).is_finite = true ∧ (op_neg b).i_ = -b.i_ := by
  have hb1 := (is_finite_iff b).1 hb
  have h := op_neg_i b (by omega) (by omega)
  rw [is_finite_iff, h]
  omega

theorem ctor_finite (bits : Nat) (v : Int) (h1 : 1 - half bits < v) (h2 : v < half bits - 1) :
    (ctor bits v).is_finite = true ∧ (ctor bits v).i_ = v := by
  have h : (ctor bits v).i_ = v := by rw [ctor_i, if_neg (by omega)]
  rw [is_finite_iff, h]
  exact ⟨⟨h1, h2⟩, rfl⟩

theorem op_lt_iff {bits : Nat} (l r : safe_int bits) :
    op_lt l r = true ↔ l.i_ ≠ 1 - half bits ∧ r.i_ ≠ 1 - half bits ∧ l.i_ < r.i_ := by
  simp only [op_lt, Bool.and_eq_true, op_ne_NaN_iff, decide_eq_true_eq, and_assoc]

theorem op_le_iff {bits : Nat} (l r : safe_int bits) :
    op_le l r = true ↔ l.i_ ≠ 1 - half bits ∧ r.i_ ≠ 1 - half bits ∧ l.i_ ≤ r.i_ := by
  simp only [op_le, Bool.and_eq_true, op_ne_NaN_iff, decide_eq_true_eq, and_assoc]

theorem op_gt_iff {bits : Nat} (l r : safe_int bits) :
    op_gt l r = true ↔ l.i_ ≠ 1 - half bits ∧ r.i_ ≠ 1 - half bits ∧ l.i_ > r.i_ := by
  simp only [op_gt, Bool.and_eq_true, op_ne_NaN_iff, decide_eq_true_eq, and_assoc]

theorem op_ge_iff {bits : Nat} (l r : safe_int bits) :
    op_ge l r = true ↔ l.i_ ≠ 1 - half bits ∧ r.i_ ≠ 1 - half bits ∧ l.i_ ≥ r.i_ := by
  simp only [op_ge, Bool.and_eq_true, op_ne_NaN_iff, decide_eq_true_eq, and_assoc]

theorem eq_false_of_not {b : Bool} (h : ¬ b = true) : b = false := by
  simpa using h

theorem inf_not_finite (bits : Nat) : (inf bits).is_finite = false :=
  eq_false_of_not (by rw [is_finite_iff, inf_i]; omega)

theorem neg_inf_not_finite (bits : Nat) : (op_neg (inf bits)).is_finite = false :=
  eq_false_of_not (by rw [is_finite_iff, neg_inf_i]; omega)

theorem finite_not_eq_NaN {bits : Nat} (a : safe_int bits) (ha : a.is_finite = true) :
    op_eq a (NaN bits) = false :=
  eq_false_of_not (by rw [op_eq_NaN_iff]; have := (is_finite_iff a).1 ha; omega)

theorem two_le_half_of_finite {bits : Nat} (a : safe_int bits) (ha : a.is_finite = true) :
    2 ≤ half bits := by
  have := (is_finite_iff a).1 ha
  omega

theorem inf_not_eq_NaN {bits : Nat} (h : 2 ≤ half bits) : op_eq (inf bits) (NaN bits) = false :=
  eq_false_of_not (by rw [op_eq_NaN_iff, inf_i]; omega)

theorem neg_inf_eq_NaN (bits : Nat) : op_eq (op_neg (inf bits)) (NaN bits) = true := by
  rw [op_eq_NaN_iff, neg_inf_i]

theorem NaN_eq_neg_inf (bits : Nat) : op_eq (NaN bits) (op_neg (inf bits)) = true := by
  have hH := half_pos bits
  rw [op_eq_iff, neg_inf_i, NaN_i]
  omega

theorem inf_eq_inf {bits : Nat} : op_eq (inf bits) (inf bits) = true := by
  have hH := half_pos bits
  rw [op_eq_iff, inf_i]
  omega

/-! ## Addition with an infinite operand -/

theorem op_add_finite_inf {bits : Nat} (a : safe_int bits) (ha : a.is_finite = true) :
    op_add a (inf bits) = inf bits := by
  have h2 := two_le_half_of_finite a ha
  simp [op_add, ha, finite_not_eq_NaN a ha, inf_not_eq_NaN h2, inf_not_finite]

theorem op_add_inf_finite {bits : Nat} (a : safe_int bits) (ha : a.is_finite = true) :
    op_add (inf bits) a = inf bits := by
  have h2 := two_le_half_of_finite a ha
  simp [op_add, ha, finite_not_eq_NaN a ha, inf_not_eq_NaN h2, inf_not_finite]

theorem op_add_neg_inf_right {bits : Nat} (a : safe_int bits) :
    op_add a (op_neg (inf bits)) = NaN bits := by
  simp [op_add, neg_inf_eq_NaN]

theorem op_add_neg_inf_left {bits : Nat} (a : safe_int bits) :
    op_add (op_neg (inf bits)) a = NaN bits := by
  simp [op_add, neg_inf_eq_NaN]

theorem op_add_inf_inf {bits : Nat} (h2 : 2 ≤ half bits) :
    op_add (inf bits) (inf bits) = inf bits := by
  simp [op_add, inf_not_eq_NaN h2, inf_not_finite, inf_eq_inf]

/-! ## Division -/

theorem ctor_zero_i (bits : Nat) : (ctor bits 0).i_ = 0 := by
  have hH := half_pos bits
  rw [ctor_i, if_neg (by omega)]

theorem finite_not_NaN {bits : Nat} (a : safe_int bits) (ha : a.is_finite = true) :
    a.is_NaN = false :=
  eq_false_of_not (by rw [is_NaN_iff]; have := (is_finite_iff a).1 ha; omega)

theorem zero_not_NaN (bits : Nat) : (ctor bits 0).is_NaN = false :=
  eq_false_of_not (by rw [is_NaN_iff, ctor_zero_i]; have := half_pos bits; omega)

theorem op_eq_zero {bits : Nat} (a : safe_int bits) :
    op_eq a (ctor bits 0) = decide (a.i_ = 0) := by
  have hH := half_pos bits
  rw [Bool.eq_iff_iff, op_eq_iff, ctor_zero_i, decide_eq_true_eq]
  omega

theorem op_lt_zero {bits : Nat} (a : safe_int bits) (h : 1 - half bits < a.i_)
    (h2 : 2 ≤ half bits) : op_lt a (ctor bits 0) = decide (a.i_ < 0) := by
  rw [Bool.eq_iff_iff, op_lt_iff, ctor_zero_i, decide_eq_true_eq]
  omega

theorem op_div_finite_zero {bits : Nat} (a : safe_int bits) (ha : a.is_finite = true)
    (h0 : a.i_ ≠ 0) :
    op_div a (ctor bits 0) = if a.i_ < 0 then op_neg (inf bits) else inf bits := by
  have ha1 := (is_finite_iff a).1 ha
  have e1 := op_eq_zero a
  have e2 := op_eq_zero (ctor bits 0)
  have e3 := op_lt_zero a (by omega) (by omega)
  rw [ctor_zero_i] at e2
  simp [op_div, ha, finite_not_NaN a ha, zero_not_NaN, e1, e2, e3, h0]

theorem infinite_facts {bits : Nat} (b : safe_int bits) (h2 : 2 ≤ half bits)
    (hb : b.i_ = half bits - 1 ∨ b.i_ = 1 - half bits) :
    b.is_NaN = false ∧ b.is_finite = false ∧ op_eq b (ctor bits 0) = false := by
  refine ⟨eq_false_of_not ?_, eq_false_of_not ?_, eq_false_of_not ?_⟩
  · rw [is_NaN_iff]; omega
  · rw [is_finite_iff]; omega
  · rw [op_eq_iff, ctor_zero_i]; omega

theorem op_div_finite_infinite {bits : Nat} (a b : safe_int bits) (ha : a.is_finite = true)
    (hb : b.i_ = half bits - 1 ∨ b.i_ = 1 - half bits) :
    op_div a b = if a.i_ < 0 then op_neg b else b := by
  have ha1 := (is_finite_iff a).1 ha
  obtain ⟨b1, b2, b3⟩ := infinite_facts b (by omega) hb
  have e3 := op_lt_zero a (by omega) (by omega)
  simp [op_div, ha, finite_not_NaN a ha, b1, b2, b3, e3]

theorem op_div_infinite_finite {bits : Nat} (a b : safe_int bits) (ha : a.is_finite = true)
    (hb : b.i_ = half bits - 1 ∨ b.i_ = 1 - half bits) :
    op_div b a = if a.i_ < 0 then op_neg b else b := by
  have ha1 := (is_finite_iff a).1 ha
  obtain ⟨b1, b2, b3⟩ := infinite_facts b (by omega) hb
  have e1 := op_eq_zero a
  have e3 := op_lt_zero a (by omega) (by omega)
  by_cases h0 : a.i_ = 0
  · simp [op_div, ha, finite_not_NaN a ha, b1, b2, b3, e1, e3, h0]
  · simp [op_div, ha, finite_not_NaN a ha, b1, b2, b3, e1, e3, h0]

/-! ## The claims -/

/-- C1 (the code departs from it): the factory `NaN()` passes `NaN_` through
the clamping constructor, so for every width its stored value is `neg_inf_`,
not `NaN_`, and `is_NaN()` is false on it. -/
theorem NaN_factory_stores_neg_inf (bits : Nat) :
    (NaN bits).get = neg_inf_ bits ∧ (NaN bits).get ≠ NaN_ bits
      ∧ (NaN bits).is_NaN = false := by
  have hH := half_pos bits
  have h : (NaN bits).i_ ≠ -half bits := by rw [NaN_i]; omega
  refine ⟨?_, ?_, eq_false_of_not ?_⟩
  · rw [safe_int.get, NaN_i, neg_inf_eq]
  · rw [safe_int.get, NaN_eq]; exact h
  · rw [is_NaN_iff]; exact h

/-- C2: for finite `a` and `b` the stored value of `a + b` is the exact sum
clamped to `[neg_inf_, pos_inf_]` and the stored value of `a - b` is the exact
difference clamped to the same interval; the three examples of the claim hold
for every width of at least 5 bits. -/
theorem add_sub_finite_saturate {bits : Nat} (a b : safe_int bits)
    (ha : a.is_finite = true) (hb : b.is_finite = true) :
    (op_add a b).get = clamp (neg_inf_ bits) (pos_inf_ bits) (a.get + b.get)
      ∧ (op_sub a b).get = clamp (neg_inf_ bits) (pos_inf_ bits) (a.get - b.get)
      ∧ (5 ≤ bits →
          op_eq (op_add (ctor bits 3) (ctor bits 4)) (ctor bits 7) = true
          ∧ op_eq (op_sub (ctor bits 3) (ctor bits 10)) (ctor bits (-7)) = true
          ∧ op_eq (op_add (ctor bits (pos_inf_ bits - 1)) (ctor bits 2)) (inf bits) = true) := by
  have hnb := op_neg_finite b hb
  refine ⟨?_, ?_, fun h5 => ?_⟩
  · rw [safe_int.get, safe_int.get, safe_int.get, op_add_finite_i a b ha hb, neg_inf_eq,
      pos_inf_eq]
  · rw [safe_int.get, safe_int.get, safe_int.get, op_sub,
      op_add_finite_i a (op_neg b) ha hnb.1, hnb.2, neg_inf_eq, pos_inf_eq, clamp, clamp]
    omega
  · have h16 := sixteen_le_half h5
    have c3 := ctor_finite bits 3 (by omega) (by omega)
    have c4 := ctor_finite bits 4 (by omega) (by omega)
    have c10 := ctor_finite bits 10 (by omega) (by omega)
    have c2 := ctor_finite bits 2 (by omega) (by omega)
    have cm := ctor_finite bits (pos_inf_ bits - 1) (by rw [pos_inf_eq]; omega)
      (by rw [pos_inf_eq]; omega)
    have n10 := op_neg_finite _ c10.1
    refine ⟨?_, ?_, ?_⟩
    · rw [op_eq_iff, op_add_finite_i _ _ c3.1 c4.1, c3.2, c4.2, ctor_i, clamp]
      rw [if_neg (by omega)]
      omega
    · rw [op_eq_iff, op_sub, op_add_finite_i _ _ c3.1 n10.1, c3.2, n10.2, c10.2, ctor_i, clamp]
      rw [if_neg (by omega)]
      omega
    · rw [op_eq_iff, op_add_finite_i _ _ cm.1 c2.1, cm.2, c2.2, inf_i, clamp, pos_inf_eq]
      omega

/-- Witness of C2 for `int` (32 bits) at `a = 3`, `b = 4`. -/
theorem add_sub_finite_saturate_witness :
    (ctor 32 3).is_finite = true ∧ (ctor 32 4).is_finite = true
      ∧ (op_add (ctor 32 3) (ctor 32 4)).get
          = clamp (neg_inf_ 32) (pos_inf_ 32) ((ctor 32 3).get + (ctor 32 4).get) :=
  ⟨by decide, by decide,
    (add_sub_finite_saturate (ctor 32 3) (ctor 32 4) (by decide) (by decide)).1⟩

/-- C3 (the code departs from it): at `a = -inf()` and `b = safe_int(0)` of
`safe_int<int>` neither operand is NaN and `a.get() < b.get()`, yet `a < b`,
`a <= b`, `b > a` and `b >= a` all evaluate to false, because the operators
test `left != NaN()` and `NaN()` holds the stored value of `-inf()`. -/
theorem ordering_false_at_neg_inf :
    (op_neg (inf 32)).is_NaN = false ∧ (ctor 32 0).is_NaN = false
      ∧ (op_neg (inf 32)).get < (ctor 32 0).get
      ∧ op_lt (op_neg (inf 32)) (ctor 32 0) = false
      ∧ op_le (op_neg (inf 32)) (ctor 32 0) = false
      ∧ op_gt (ctor 32 0) (op_neg (inf 32)) = false
      ∧ op_ge (ctor 32 0) (op_neg (inf 32)) = false := by
  decide

/-- C4: for every raw value `i` of the signed type the constructor stores
`max(i, neg_inf_)` with `neg_inf_ = -max(T)`: every `i ≥ neg_inf_` is stored
unchanged, the only raw value below `neg_inf_` is `min(T)`, and
`safe_int(min(T)) == safe_int(neg_inf_)`. -/
theorem ctor_stores_max (bits : Nat) (i : Int) (hi : IsT bits i) :
    (ctor bits i).get = max i (neg_inf_ bits)
      ∧ neg_inf_ bits = -T_max bits
      ∧ (neg_inf_ bits ≤ i → (ctor bits i).get = i)
      ∧ (i < neg_inf_ bits → i = T_min bits)
      ∧ op_eq (ctor bits (T_min bits)) (ctor bits (neg_inf_ bits)) = true := by
  have hH := half_pos bits
  obtain ⟨h1, h2⟩ := hi
  rw [T_min] at h1
  rw [T_max] at h2
  simp only [safe_int.get, neg_inf_eq, T_max, T_min, op_eq_iff, ctor_i]
  refine ⟨?_, ?_, ?_, ?_, ?_⟩
  · split_ifs <;> omega
  · omega
  · intro h; rw [if_neg (by omega)]
  · intro h; omega
  · rw [if_pos (by omega), if_neg (by omega)]; omega

/-- Witness of C4 for `int` (32 bits) at the raw value `min(T)`. -/
theorem ctor_stores_max_witness :
    IsT 32 (T_min 32) ∧ (ctor 32 (T_min 32)).get = max (T_min 32) (neg_inf_ 32) :=
  ⟨by decide, (ctor_stores_max 32 (T_min 32) (by decide)).1⟩

/-- C5 (the code departs from it): for every width `NaN() == NaN()` evaluates
to true and `NaN() != NaN()` evaluates to false, because the value returned by
`NaN()` holds `neg_inf_`, which the operators do not treat as invalid. -/
theorem NaN_equal_to_itself (bits : Nat) :
    op_eq (NaN bits) (NaN bits) = true ∧ op_ne (NaN bits) (NaN bits) = false := by
  have hH := half_pos bits
  refine ⟨?_, eq_false_of_not ?_⟩
  · rw [op_eq_iff, NaN_i]; omega
  · rw [op_ne_iff, NaN_i]; omega

/-- C6 (the code departs from it): for every width the results of
`inf() + (-inf())`, `(-inf()) + inf()` and `safe_int(0) / safe_int(0)` are the
value returned by `NaN()`, whose stored value is `neg_inf_`, so `is_NaN()` is
false on each of them. -/
theorem indeterminate_forms_not_NaN (bits : Nat) :
    (op_add (inf bits) (op_neg (inf bits))).is_NaN = false
      ∧ (op_add (op_neg (inf bits)) (inf bits)).is_NaN = false
      ∧ (op_div (ctor bits 0) (ctor bits 0)).is_NaN = false
      ∧ (op_add (inf bits) (op_neg (inf bits))).get = neg_inf_ bits
      ∧ (op_add (op_neg (inf bits)) (inf bits)).get = neg_inf_ bits
      ∧ (op_div (ctor bits 0) (ctor bits 0)).get = neg_inf_ bits := by
  have hH := half_pos bits
  have hn : (NaN bits).is_NaN = false :=
    eq_false_of_not (by rw [is_NaN_iff, NaN_i]; omega)
  have e0 := op_eq_zero (ctor bits 0)
  rw [ctor_zero_i] at e0
  have hd : op_div (ctor bits 0) (ctor bits 0) = NaN bits := by
    simp [op_div, zero_not_NaN, e0]
  rw [op_add_neg_inf_right, op_add_neg_inf_left, hd, safe_int.get, NaN_i, neg_inf_eq]
  exact ⟨hn, hn, hn, rfl, rfl, rfl⟩

/-- C7 (the code departs from it): with `x = safe_int(1)` of `safe_int<int>`,
none of `-NaN()`, `NaN() + x`, `x + NaN()`, `NaN() - x`, `x - NaN()`,
`NaN() / x`, `x / NaN()` is NaN; each result is an infinity. -/
theorem NaN_not_sticky :
    (op_neg (NaN 32)).is_NaN = false
      ∧ (op_add (NaN 32) (ctor 32 1)).is_NaN = false
      ∧ (op_add (ctor 32 1) (NaN 32)).is_NaN = false
      ∧ (op_sub (NaN 32) (ctor 32 1)).is_NaN = false
      ∧ (op_sub (ctor 32 1) (NaN 32)).is_NaN = false
      ∧ (op_div (NaN 32) (ctor 32 1)).is_NaN = false
      ∧ (op_div (ctor 32 1) (NaN 32)).is_NaN = false
      ∧ (op_neg (NaN 32)).get = pos_inf_ 32
      ∧ (op_add (NaN 32) (ctor 32 1)).get = neg_inf_ 32
      ∧ (op_add (ctor 32 1) (NaN 32)).get = neg_inf_ 32
      ∧ (op_sub (NaN 32) (ctor 32 1)).get = neg_inf_ 32
      ∧ (op_sub (ctor 32 1) (NaN 32)).get = pos_inf_ 32
      ∧ (op_div (NaN 32) (ctor 32 1)).get = neg_inf_ 32
      ∧ (op_div (ctor 32 1) (NaN 32)).get = neg_inf_ 32 := by
  decide

/-- C8: for every finite `a`, `a + inf() == inf()`, `inf() + a == inf()`,
`a - inf() == -inf()` and `(-inf()) + a == -inf()` evaluate to true, and so do
`inf() + inf() == inf()` and `(-inf()) + (-inf()) == -inf()`. -/
theorem inf_absorbing {bits : Nat} (a : safe_int bits) (ha : a.is_finite = true) :
    op_eq (op_add a (inf bits)) (inf bits) = true
      ∧ op_eq (op_add (inf bits) a) (inf bits) = true
      ∧ op_eq (op_sub a (inf bits)) (op_neg (inf bits)) = true
      ∧ op_eq (op_add (op_neg (inf bits)) a) (op_neg (inf bits)) = true
      ∧ op_eq (op_add (inf bits) (inf bits)) (inf bits) = true
      ∧ op_eq (op_add (op_neg (inf bits)) (op_neg (inf bits))) (op_neg (inf bits)) = true := by
  have h2 := two_le_half_of_finite a ha
  rw [op_add_finite_inf a ha, op_add_inf_finite a ha, op_sub, op_add_neg_inf_right,
    op_add_neg_inf_left, op_add_neg_inf_left, op_add_inf_inf h2]
  exact ⟨inf_eq_inf, inf_eq_inf, NaN_eq_neg_inf bits, NaN_eq_neg_inf bits, inf_eq_inf,
    NaN_eq_neg_inf bits⟩

/-- Witness of C8 for `int` (32 bits) at `a = 5`. -/
theorem inf_absorbing_witness :
    (ctor 32 5).is_finite = true
      ∧ op_eq (op_add (ctor 32 5) (inf 32)) (inf 32) = true
      ∧ op_eq (op_sub (ctor 32 5) (inf 32)) (op_neg (inf 32)) = true :=
  ⟨by decide, (inf_absorbing (ctor 32 5) (by decide)).1,
    (inf_absorbing (ctor 32 5) (by decide)).2.2.1⟩

/-- C9: for every finite nonzero `a`, `a / safe_int(0) == inf()` when
`a.get() > 0` and `a / safe_int(0) == -inf()` when `a.get() < 0`; for every
width of at least 4 bits `5/0 == inf()` and `-5/0 == -inf()`. -/
theorem div_zero_signed_inf {bits : Nat} (a : safe_int bits) (ha : a.is_finite = true)
    (h0 : a.get ≠ 0) :
    (0 < a.get → op_eq (op_div a (ctor bits 0)) (inf bits) = true)
      ∧ (a.get < 0 → op_eq (op_div a (ctor bits 0)) (op_neg (inf bits)) = true)
      ∧ (4 ≤ bits →
          op_eq (op_div (ctor bits 5) (ctor bits 0)) (inf bits) = true
          ∧ op_eq (op_div (ctor bits (-5)) (ctor bits 0)) (op_neg (inf bits)) = true) := by
  have hH := half_pos bits
  have hnn : op_eq (op_neg (inf bits)) (op_neg (inf bits)) = true := by
    rw [op_eq_iff, neg_inf_i]; omega
  rw [safe_int.get] at h0
  refine ⟨fun hp => ?_, fun hn => ?_, fun h4 => ?_⟩
  · rw [safe_int.get] at hp
    rw [op_div_finite_zero a ha h0, if_neg (by omega)]
    exact inf_eq_inf
  · rw [safe_int.get] at hn
    rw [op_div_finite_zero a ha h0, if_pos hn]
    exact hnn
  · have h8 := eight_le_half h4
    have c5 := ctor_finite bits 5 (by omega) (by omega)
    have cm := ctor_finite bits (-5) (by omega) (by omega)
    rw [op_div_finite_zero _ c5.1 (by rw [c5.2]; omega),
      op_div_finite_zero _ cm.1 (by rw [cm.2]; omega), c5.2, cm.2,
      if_neg (by omega), if_pos (by omega)]
    exact ⟨inf_eq_inf, hnn⟩

/-- Witness of C9 for `int` (32 bits) at `a = 5`. -/
theorem div_zero_signed_inf_witness :
    (ctor 32 5).is_finite = true ∧ (ctor 32 5).get ≠ 0 ∧ 0 < (ctor 32 5).get
      ∧ op_eq (op_div (ctor 32 5) (ctor 32 0)) (inf 32) = true :=
  ⟨by decide, by decide, by decide,
    (div_zero_signed_inf (ctor 32 5) (by decide) (by decide)).1 (by decide)⟩

/-- C10: when `a` is finite and `b` is infinite (its stored value is
`pos_inf_` or `neg_inf_`), the stored value of `a / b` and of `b / a` is
`-b.get()` if `a.get() < 0` and `b.get()` otherwise (also for `a == 0`); in
particular `0 / inf()` is positive infinity and not zero. -/
theorem div_one_infinite {bits : Nat} (a b : safe_int bits) (ha : a.is_finite = true)
    (hb : b.get = pos_inf_ bits ∨ b.get = neg_inf_ bits) :
    (op_div a b).get = (if a.get < 0 then -b.get else b.get)
      ∧ (op_div b a).get = (if a.get < 0 then -b.get else b.get)
      ∧ (op_div (ctor bits 0) (inf bits)).get = pos_inf_ bits
      ∧ (op_div (ctor bits 0) (inf bits)).get ≠ 0 := by
  have ha1 := (is_finite_iff a).1 ha
  simp only [safe_int.get, pos_inf_eq, neg_inf_eq] at hb ⊢
  have hn : (op_neg b).i_ = -b.i_ := op_neg_i b (by omega) (by omega)
  have c0 := ctor_finite bits 0 (by omega) (by omega)
  have hz : op_div (ctor bits 0) (inf bits) = inf bits := by
    rw [op_div_finite_infinite (ctor bits 0) (inf bits) c0.1 (Or.inl (inf_i bits)), c0.2]
    exact if_neg (by omega)
  rw [op_div_finite_infinite a b ha hb, op_div_infinite_finite a b ha hb, hz, inf_i]
  refine ⟨?_, ?_, rfl, by omega⟩
  · split_ifs
    · exact hn
    · rfl
  · split_ifs
    · exact hn
    · rfl

/-- Witness of C10 for `int` (32 bits) at `a = -3`, `b = inf()`. -/
theorem div_one_infinite_witness :
    (ctor 32 (-3)).is_finite = true
      ∧ ((inf 32).get = pos_inf_ 32 ∨ (inf 32).get = neg_inf_ 32)
      ∧ (op_div (ctor 32 (-3)) (inf 32)).get
          = (if (ctor 32 (-3)).get < 0 then -(inf 32).get else (inf 32).get)
      ∧ (op_div (inf 32) (ctor 32 (-3))).get
          = (if (ctor 32 (-3)).get < 0 then -(inf 32).get else (inf 32).get) :=
  ⟨by decide, by decide,
    (div_one_infinite (ctor 32 (-3)) (inf 32) (by decide) (by decide)).1,
    (div_one_infinite (ctor 32 (-3)) (inf 32) (by decide) (by decide)).2.1⟩

/-! ## Further facts used by the later claims -/

theorem tdiv_natAbs_le (a b : Int) : (Int.tdiv a b).natAbs ≤ a.natAbs := by
  rw [Int.natAbs_tdiv]
  exact Nat.div_le_self _ _

theorem wrapT_range (bits : Nat) (v : Int) :
    -half bits ≤ wrapT bits v ∧ wrapT bits v < half bits := by
  have hH := half_pos bits
  have h1 := Int.emod_nonneg (v + half bits) (show (2 * half bits) ≠ 0 by omega)
  have h2 := Int.emod_lt_of_pos (v + half bits) (show 0 < 2 * half bits by omega)
  unfold wrapT
  omega

theorem op_div_finite_finite {bits : Nat} (a b : safe_int bits) (ha : a.is_finite = true)
    (hb : b.is_finite = true) (h0 : b.i_ ≠ 0) :
    op_div a b = ctor bits (Int.tdiv a.i_ b.i_) := by
  have ha1 := (is_finite_iff a).1 ha
  have hq := tdiv_natAbs_le a.i_ b.i_
  simp only [op_div, ha, hb, finite_not_NaN a ha, finite_not_NaN b hb, op_eq_zero b, h0,
    decide_False, Bool.or_self, Bool.false_eq_true, if_false, Bool.and_false, Bool.not_true,
    Bool.false_and, Bool.and_self, T_div]
  rw [wrapT_id (by omega) (by omega)]

/-- C11: for finite `a` and `b` with `b.get() != 0`, the stored value of
`a / b` is the quotient of the stored values truncated toward zero, and the
result is finite. -/
theorem div_finite_truncates {bits : Nat} (a b : safe_int bits) (ha : a.is_finite = true)
    (hb : b.is_finite = true) (h0 : b.get ≠ 0) :
    (op_div a b).get = Int.tdiv a.get b.get ∧ (op_div a b).is_finite = true := by
  have ha1 := (is_finite_iff a).1 ha
  have hq := tdiv_natAbs_le a.i_ b.i_
  have hc := ctor_finite bits (Int.tdiv a.i_ b.i_) (by omega) (by omega)
  rw [safe_int.get] at h0
  rw [op_div_finite_finite a b ha hb h0, safe_int.get, safe_int.get, safe_int.get]
  exact ⟨hc.2, hc.1⟩

/-- Witness of C11 for `int` (32 bits) at `a = -7`, `b = 2`. -/
theorem div_finite_truncates_witness :
    (ctor 32 (-7)).is_finite = true ∧ (ctor 32 2).is_finite = true ∧ (ctor 32 2).get ≠ 0
      ∧ (op_div (ctor 32 (-7)) (ctor 32 2)).get = Int.tdiv (ctor 32 (-7)).get (ctor 32 2).get
      ∧ (op_div (ctor 32 (-7)) (ctor 32 2)).is_finite = true :=
  ⟨by decide, by decide, by decide,
    div_finite_truncates (ctor 32 (-7)) (ctor 32 2) (by decide) (by decide) (by decide)⟩

/-- C12: `a == b` is true iff neither stored value is `NaN_` and the stored
values are equal, and `a != b` is the negation of `a == b`. -/
theorem eq_ne_semantics {bits : Nat} (a b : safe_int bits) :
    (op_eq a b = true ↔ a.get ≠ NaN_ bits ∧ b.get ≠ NaN_ bits ∧ a.get = b.get)
      ∧ op_ne a b = !op_eq a b := by
  refine ⟨?_, ?_⟩
  · rw [op_eq_iff, safe_int.get, safe_int.get, NaN_eq]
  · rw [Bool.eq_iff_iff, Bool.not_eq_true', ← Bool.not_eq_true, op_ne_iff, op_eq_iff]
    by_cases h1 : a.i_ = -half bits <;> by_cases h2 : b.i_ = -half bits <;>
      by_cases h3 : a.i_ = b.i_ <;> simp [h1, h2, h3]

/-- C13: for every `y`, the eight ordering comparisons with the value returned
by `NaN()` on either side evaluate to false. -/
theorem ordering_with_NaN_false {bits : Nat} (y : safe_int bits) :
    op_lt (NaN bits) y = false ∧ op_le (NaN bits) y = false
      ∧ op_gt (NaN bits) y = false ∧ op_ge (NaN bits) y = false
      ∧ op_lt y (NaN bits) = false ∧ op_le y (NaN bits) = false
      ∧ op_gt y (NaN bits) = false ∧ op_ge y (NaN bits) = false := by
  have h := NaN_i bits
  refine ⟨eq_false_of_not ?_, eq_false_of_not ?_, eq_false_of_not ?_, eq_false_of_not ?_,
    eq_false_of_not ?_, eq_false_of_not ?_, eq_false_of_not ?_, eq_false_of_not ?_⟩
  · rw [op_lt_iff]; omega
  · rw [op_le_iff]; omega
  · rw [op_gt_iff]; omega
  · rw [op_ge_iff]; omega
  · rw [op_lt_iff]; omega
  · rw [op_le_iff]; omega
  · rw [op_gt_iff]; omega
  · rw [op_ge_iff]; omega

theorem eq_of_i_eq {bits : Nat} {x y : safe_int bits} (h : x.i_ = y.i_) : x = y := by
  cases x
  cases y
  simp only [safe_int.mk.injEq]
  exact h

theorem op_neg_neg {bits : Nat} (x : safe_int bits) (h1 : 1 - half bits ≤ x.i_)
    (h2 : x.i_ ≤ half bits - 1) : op_neg (op_neg x) = x := by
  have e1 := op_neg_i x (by omega) (by omega)
  have e2 := op_neg_i (op_neg x) (by omega) (by omega)
  exact eq_of_i_eq (by omega)

theorem op_eq_self {bits : Nat} (x : safe_int bits) (h1 : 1 - half bits ≤ x.i_) :
    op_eq x x = true := by
  rw [op_eq_iff]
  omega

/-- C14: for every `x` with `neg_inf_ <= x.get() <= pos_inf_`, the stored
value of `-x` is `-(x.get())` and `-(-x) == x` (the two objects are even
identical); `(-inf()).get()` is `neg_inf_`, `-(-inf()) == inf()`, and
`-(-safe_int(i)) == safe_int(i)` for every finite raw `i`. -/
theorem neg_involution {bits : Nat} (x : safe_int bits) (h1 : neg_inf_ bits ≤ x.get)
    (h2 : x.get ≤ pos_inf_ bits) :
    (op_neg x).get = -x.get
      ∧ op_eq (op_neg (op_neg x)) x = true
      ∧ op_neg (op_neg x) = x
      ∧ (op_neg (inf bits)).get = neg_inf_ bits
      ∧ op_eq (op_neg (op_neg (inf bits))) (inf bits) = true
      ∧ (∀ i : Int, neg_inf_ bits < i → i < pos_inf_ bits →
          op_eq (op_neg (op_neg (ctor bits i))) (ctor bits i) = true) := by
  have hH := half_pos bits
  simp only [safe_int.get, neg_inf_eq, pos_inf_eq] at h1 h2 ⊢
  have hi := inf_i bits
  refine ⟨op_neg_i x (by omega) (by omega), ?_, op_neg_neg x h1 h2, neg_inf_i bits, ?_, ?_⟩
  · rw [op_neg_neg x h1 h2]
    exact op_eq_self x h1
  · rw [op_neg_neg _ (by omega) (by omega)]
    exact inf_eq_inf
  · intro i l1 l2
    have hc := (ctor_finite bits i l1 l2).2
    rw [op_neg_neg _ (by omega) (by omega)]
    exact op_eq_self _ (by omega)

/-- Witness of C14 for `int` (32 bits) at `x = safe_int(-9)`. -/
theorem neg_involution_witness :
    neg_inf_ 32 ≤ (ctor 32 (-9)).get ∧ (ctor 32 (-9)).get ≤ pos_inf_ 32
      ∧ (op_neg (ctor 32 (-9))).get = -(ctor 32 (-9)).get
      ∧ op_eq (op_neg (op_neg (ctor 32 (-9)))) (ctor 32 (-9)) = true :=
  ⟨by decide, by decide,
    (neg_involution (ctor 32 (-9)) (by decide) (by decide)).1,
    (neg_involution (ctor 32 (-9)) (by decide) (by decide)).2.1⟩

/-- C15: `++x` and `--x` leave a stored `pos_inf_`, `neg_inf_` or `NaN_`
unchanged; for every other stored value `v` of the underlying type, `++x`
stores `v + 1` and `--x` stores `v - 1`, both within `[neg_inf_, pos_inf_]`;
for a type of at least 2 bits `++` on `pos_inf_ - 1` gives `pos_inf_` and `--`
on `neg_inf_ + 1` gives `neg_inf_`. -/
theorem inc_dec_saturate {bits : Nat} (x : safe_int bits) (hx : IsT bits x.get) :
    ((x.get = pos_inf_ bits ∨ x.get = neg_inf_ bits ∨ x.get = NaN_ bits) →
        op_preinc x = x ∧ op_predec x = x)
      ∧ (¬ (x.get = pos_inf_ bits ∨ x.get = neg_inf_ bits ∨ x.get = NaN_ bits) →
        (op_preinc x).get = x.get + 1 ∧ (op_predec x).get = x.get - 1
          ∧ neg_inf_ bits ≤ (op_preinc x).get ∧ (op_preinc x).get ≤ pos_inf_ bits
          ∧ neg_inf_ bits ≤ (op_predec x).get ∧ (op_predec x).get ≤ pos_inf_ bits)
      ∧ (2 ≤ bits → x.get = pos_inf_ bits - 1 → (op_preinc x).get = pos_inf_ bits)
      ∧ (2 ≤ bits → x.get = neg_inf_ bits + 1 → (op_predec x).get = neg_inf_ bits) := by
  have hH := half_pos bits
  obtain ⟨l1, l2⟩ := hx
  simp only [safe_int.get, neg_inf_eq, pos_inf_eq, NaN_eq, T_min, T_max] at l1 l2 ⊢
  have key : ¬ (x.i_ = half bits - 1 ∨ x.i_ = 1 - half bits ∨ x.i_ = -half bits) →
      (op_preinc x).i_ = x.i_ + 1 ∧ (op_predec x).i_ = x.i_ - 1 := by
    intro h
    simp only [op_preinc, op_predec, neg_inf_eq, pos_inf_eq, NaN_eq]
    rw [if_neg (by omega), if_neg (by omega), if_neg (by omega), if_neg (by omega),
      if_neg (by omega), if_neg (by omega), wrapT_id (by omega) (by omega),
      wrapT_id (by omega) (by omega)]
    exact ⟨rfl, rfl⟩
  refine ⟨fun h => ?_, fun h => ?_, fun hb h => ?_, fun hb h => ?_⟩
  · simp only [op_preinc, op_predec, neg_inf_eq, pos_inf_eq, NaN_eq]
    rcases h with h | h | h
    · rw [if_pos h, if_pos h]; exact ⟨rfl, rfl⟩
    · simp [h]
    · simp [h]
  · obtain ⟨k1, k2⟩ := key h
    rw [k1, k2]
    omega
  · have h2 := two_le_half hb
    have hk : ¬ (x.i_ = half bits - 1 ∨ x.i_ = 1 - half bits ∨ x.i_ = -half bits) := by
      omega
    rw [(key hk).1]; omega
  · have h2 := two_le_half hb
    have hk : ¬ (x.i_ = half bits - 1 ∨ x.i_ = 1 - half bits ∨ x.i_ = -half bits) := by
      omega
    rw [(key hk).2]; omega

/-- Witness of C15 for `int` (32 bits) at `x = safe_int(41)`. -/
theorem inc_dec_saturate_witness :
    IsT 32 (ctor 32 41).get
      ∧ (op_preinc (ctor 32 41)).get = (ctor 32 41).get + 1
      ∧ (op_predec (ctor 32 41)).get = (ctor 32 41).get - 1 :=
  ⟨by decide,
    ((inc_dec_saturate (ctor 32 41) (by decide)).2.1 (by decide)).1,
    ((inc_dec_saturate (ctor 32 41) (by decide)).2.1 (by decide)).2.1⟩

/-- C16: for a type of at least 2 bits, `numeric_limits<safe_int<T>>::min()`
stores `neg_inf_ + 1`, `max()` stores `pos_inf_ - 1`, `lowest()` is `min()`,
both bounds are finite, `x.is_finite()` holds iff
`min().get() <= x.get() <= max().get()`, equivalently
`neg_inf_ < x.get() < pos_inf_`, and `infinity()` is `inf()`. -/
theorem numeric_limits_finite_range {bits : Nat} (x : safe_int bits) (hb : 2 ≤ bits) :
    (numeric_limits.min bits).get = neg_inf_ bits + 1
      ∧ (numeric_limits.max bits).get = pos_inf_ bits - 1
      ∧ numeric_limits.lowest bits = numeric_limits.min bits
      ∧ (numeric_limits.min bits).is_finite = true
      ∧ (numeric_limits.max bits).is_finite = true
      ∧ (x.is_finite = true ↔
          (numeric_limits.min bits).get ≤ x.get ∧ x.get ≤ (numeric_limits.max bits).get)
      ∧ (x.is_finite = true ↔ neg_inf_ bits < x.get ∧ x.get < pos_inf_ bits)
      ∧ numeric_limits.infinity bits = inf bits
      ∧ op_eq (numeric_limits.infinity bits) (inf bits) = true := by
  have h2 := two_le_half hb
  have e1 : numeric_limits.min bits = ctor bits (wrapT bits (neg_inf_ bits + 1)) := rfl
  have e2 : numeric_limits.max bits = ctor bits (wrapT bits (half bits - 1 - 1)) := rfl
  have c1 := ctor_finite bits (1 - half bits + 1) (by omega) (by omega)
  have c2 := ctor_finite bits (half bits - 1 - 1) (by omega) (by omega)
  rw [neg_inf_eq, wrapT_id (by omega) (by omega)] at e1
  rw [wrapT_id (by omega) (by omega)] at e2
  have m1 : (numeric_limits.min bits).i_ = 1 - half bits + 1 := by rw [e1]; exact c1.2
  have m2 : (numeric_limits.max bits).i_ = half bits - 1 - 1 := by rw [e2]; exact c2.2
  have f1 : (numeric_limits.min bits).is_finite = true := by rw [e1]; exact c1.1
  have f2 : (numeric_limits.max bits).is_finite = true := by rw [e2]; exact c2.1
  refine ⟨?_, ?_, rfl, f1, f2, ?_, ?_, rfl, inf_eq_inf⟩
  · rw [safe_int.get, m1, neg_inf_eq]
  · rw [safe_int.get, m2, pos_inf_eq]
  · rw [is_finite_iff, safe_int.get, safe_int.get, safe_int.get, m1, m2]
    omega
  · rw [is_finite_iff, safe_int.get, neg_inf_eq, pos_inf_eq]

/-- Witness of C16 for `int` (32 bits) at `x = safe_int(0)`. -/
theorem numeric_limits_finite_range_witness :
    2 ≤ 32 ∧ (numeric_limits.min 32).get = neg_inf_ 32 + 1
      ∧ (numeric_limits.max 32).get = pos_inf_ 32 - 1 :=
  ⟨by decide, (numeric_limits_finite_range (ctor 32 0) (by decide)).1,
    (numeric_limits_finite_range (ctor 32 0) (by decide)).2.1⟩

/-! ## The range invariant -/

theorem ctor_in_range (bits : Nat) (v : Int) (h1 : -half bits ≤ v) (h2 : v < half bits) :
    1 - half bits ≤ (ctor bits v).i_ ∧ (ctor bits v).i_ ≤ half bits - 1 := by
  have hH := half_pos bits
  rw [ctor_i]
  split_ifs <;> omega

theorem ctor_wrap_in_range (bits : Nat) (v : Int) :
    1 - half bits ≤ (ctor bits (wrapT bits v)).i_
      ∧ (ctor bits (wrapT bits v)).i_ ≤ half bits - 1 :=
  ctor_in_range bits _ (wrapT_range bits v).1 (wrapT_range bits v).2

theorem NaN_in_range (bits : Nat) :
    1 - half bits ≤ (NaN bits).i_ ∧ (NaN bits).i_ ≤ half bits - 1 := by
  have hH := half_pos bits
  rw [NaN_i]
  omega

theorem inf_in_range (bits : Nat) :
    1 - half bits ≤ (inf bits).i_ ∧ (inf bits).i_ ≤ half bits - 1 := by
  have hH := half_pos bits
  rw [inf_i]
  omega

theorem op_neg_in_range {bits : Nat} (x : safe_int bits) :
    1 - half bits ≤ (op_neg x).i_ ∧ (op_neg x).i_ ≤ half bits - 1 := by
  have hH := half_pos bits
  have e := NaN_eq bits
  unfold op_neg
  split_ifs
  · exact ctor_in_range bits _ (by omega) (by omega)
  · exact ctor_wrap_in_range bits _

theorem op_add_in_range {bits : Nat} (l r : safe_int bits)
    (hl : 1 - half bits ≤ l.i_ ∧ l.i_ ≤ half bits - 1)
    (hr : 1 - half bits ≤ r.i_ ∧ r.i_ ≤ half bits - 1) :
    1 - half bits ≤ (op_add l r).i_ ∧ (op_add l r).i_ ≤ half bits - 1 := by
  unfold op_add
  split_ifs
  · exact NaN_in_range bits
  · exact hl
  · exact NaN_in_range bits
  · exact hl
  · exact hr
  · exact inf_in_range bits
  · exact op_neg_in_range _
  · exact ctor_wrap_in_range bits _

theorem op_div_in_range {bits : Nat} (l r : safe_int bits)
    (hl : 1 - half bits ≤ l.i_ ∧ l.i_ ≤ half bits - 1)
    (hr : 1 - half bits ≤ r.i_ ∧ r.i_ ≤ half bits - 1) :
    1 - half bits ≤ (op_div l r).i_ ∧ (op_div l r).i_ ≤ half bits - 1 := by
  unfold op_div
  split_ifs
  · exact NaN_in_range bits
  · exact NaN_in_range bits
  · exact op_neg_in_range _
  · exact inf_in_range bits
  · exact op_neg_in_range _
  · exact hr
  · exact hl
  · exact op_neg_in_range _
  · exact hl
  · exact ctor_wrap_in_range bits _

theorem op_preinc_in_range {bits : Nat} (x : safe_int bits)
    (hx : 1 - half bits ≤ x.i_ ∧ x.i_ ≤ half bits - 1) :
    1 - half bits ≤ (op_preinc x).i_ ∧ (op_preinc x).i_ ≤ half bits - 1 := by
  unfold op_preinc
  rw [pos_inf_eq, neg_inf_eq]
  split_ifs with h1 h2 h3
  · exact hx
  · exact hx
  · exact hx
  · show 1 - half bits ≤ wrapT bits (x.i_ + 1) ∧ wrapT bits (x.i_ + 1) ≤ half bits - 1
    rw [wrapT_id (by omega) (by omega)]
    omega

theorem op_predec_in_range {bits : Nat} (x : safe_int bits)
    (hx : 1 - half bits ≤ x.i_ ∧ x.i_ ≤ half bits - 1) :
    1 - half bits ≤ (op_predec x).i_ ∧ (op_predec x).i_ ≤ half bits - 1 := by
  unfold op_predec
  rw [pos_inf_eq, neg_inf_eq]
  split_ifs with h1 h2 h3
  · exact hx
  · exact hx
  · exact hx
  · show 1 - half bits ≤ wrapT bits (x.i_ - 1) ∧ wrapT bits (x.i_ - 1) ≤ half bits - 1
    rw [wrapT_id (by omega) (by omega)]
    omega

theorem reachable_range {bits : Nat} (x : safe_int bits) (h : Reachable bits x) :
    1 - half bits ≤ x.i_ ∧ x.i_ ≤ half bits - 1 := by
  induction h with
  | ctor i hi =>
    obtain ⟨l1, l2⟩ := hi
    rw [T_min] at l1
    rw [T_max] at l2
    exact ctor_in_range bits i l1 (by omega)
  | inf => exact inf_in_range bits
  | NaN => exact NaN_in_range bits
  | neg x _ _ => exact op_neg_in_range x
  | preinc x _ ih => exact op_preinc_in_range x ih
  | predec x _ ih => exact op_predec_in_range x ih
  | postinc x _ ih => exact op_preinc_in_range x ih
  | postdec x _ ih => exact op_predec_in_range x ih
  | add x y _ _ ihx ihy => exact op_add_in_range x y ihx ihy
  | sub x y _ _ ihx ihy => exact op_add_in_range x (op_neg y) ihx (op_neg_in_range y)
  | div x y _ _ ihx ihy => exact op_div_in_range x y ihx ihy
  | add_assign x y _ _ ihx ihy => exact op_add_in_range x y ihx ihy
  | sub_assign x y _ _ ihx ihy => exact op_add_in_range x (op_neg y) ihx (op_neg_in_range y)
  | div_assign x y _ _ ihx ihy => exact op_div_in_range x y ihx ihy

/-- C18: every value obtainable through the public interface (the constructor
on raw integers, `inf()`, `NaN()`, unary `-`, `++`, `--`, `+`, `-`, `/` and
the assignment forms) has a stored value in `[neg_inf_, pos_inf_]`; so
`is_NaN()` is false on it and its stored value is never `min(T)`. -/
theorem reachable_in_range {bits : Nat} (x : safe_int bits) (h : Reachable bits x) :
    neg_inf_ bits ≤ x.get ∧ x.get ≤ pos_inf_ bits ∧ x.is_NaN = false
      ∧ x.get ≠ T_min bits := by
  have hH := half_pos bits
  have hr := reachable_range x h
  rw [safe_int.get, neg_inf_eq, pos_inf_eq, T_min]
  refine ⟨hr.1, hr.2, eq_false_of_not ?_, ?_⟩
  · rw [is_NaN_iff]; omega
  · omega

/-- Witness of C18 for `int` (32 bits) at `safe_int(0) / safe_int(0) - NaN()`. -/
theorem reachable_in_range_witness :
    Reachable 32 (op_sub (op_div (ctor 32 0) (ctor 32 0)) (NaN 32))
      ∧ (op_sub (op_div (ctor 32 0) (ctor 32 0)) (NaN 32)).is_NaN = false :=
  ⟨Reachable.sub _ _ (Reachable.div _ _ (Reachable.ctor 0 (by decide))
      (Reachable.ctor 0 (by decide))) Reachable.NaN,
    (reachable_in_range _ (Reachable.sub _ _ (Reachable.div _ _ (Reachable.ctor 0 (by decide))
      (Reachable.ctor 0 (by decide))) Reachable.NaN)).2.2.1⟩

/-! ## Division of two infinities, and commutativity of addition -/

theorem four_le_half {bits : Nat} (h : 3 ≤ bits) : 4 ≤ half bits := by
  unfold half
  have h2 : 2 ^ 2 ≤ 2 ^ (bits - 1) := Nat.pow_le_pow_right (by decide) (by omega)
  exact_mod_cast h2

theorem op_div_infinite_infinite {bits : Nat} (a b : safe_int bits) (h2 : 2 ≤ half bits)
    (ha : a.i_ = half bits - 1 ∨ a.i_ = 1 - half bits)
    (hb : b.i_ = half bits - 1 ∨ b.i_ = 1 - half bits) :
    op_div a b = ctor bits (T_div bits a.i_ b.i_) := by
  obtain ⟨a1, a2, _⟩ := infinite_facts a h2 ha
  obtain ⟨b1, b2, b3⟩ := infinite_facts b h2 hb
  simp only [op_div, a1, a2, b1, b2, b3, Bool.or_self, Bool.false_eq_true, if_false,
    Bool.and_false, Bool.false_and, Bool.not_false, Bool.and_self, Bool.and_true]

theorem tdiv_sentinels (H : Int) (h : 2 ≤ H) :
    Int.tdiv (H - 1) (H - 1) = 1 ∧ Int.tdiv (1 - H) (1 - H) = 1
      ∧ Int.tdiv (H - 1) (1 - H) = -1 ∧ Int.tdiv (1 - H) (H - 1) = -1 := by
  have e : 1 - H = -(H - 1) := by omega
  have h1 : Int.tdiv (H - 1) (H - 1) = 1 := Int.tdiv_self (by omega)
  refine ⟨h1, Int.tdiv_self (by omega), ?_, ?_⟩
  · rw [e, Int.tdiv_neg, h1]
  · rw [e, Int.neg_tdiv, h1]

/-- C19: for a type of at least 3 bits, `inf() / inf()` and
`(-inf()) / (-inf())` have stored value 1, `inf() / (-inf())` and
`(-inf()) / inf()` have stored value -1, and each result is finite and not
NaN. -/
theorem div_infinities {bits : Nat} (hb : 3 ≤ bits) :
    (op_div (inf bits) (inf bits)).get = 1
      ∧ (op_div (op_neg (inf bits)) (op_neg (inf bits))).get = 1
      ∧ (op_div (inf bits) (op_neg (inf bits))).get = -1
      ∧ (op_div (op_neg (inf bits)) (inf bits)).get = -1
      ∧ (op_div (inf bits) (inf bits)).is_finite = true
      ∧ (op_div (op_neg (inf bits)) (op_neg (inf bits))).is_finite = true
      ∧ (op_div (inf bits) (op_neg (inf bits))).is_finite = true
      ∧ (op_div (op_neg (inf bits)) (inf bits)).is_finite = true
      ∧ (op_div (inf bits) (inf bits)).is_NaN = false
      ∧ (op_div (op_neg (inf bits)) (op_neg (inf bits))).is_NaN = false
      ∧ (op_div (inf bits) (op_neg (inf bits))).is_NaN = false
      ∧ (op_div (op_neg (inf bits)) (inf bits)).is_NaN = false := by
  have h4 := four_le_half hb
  have hp := inf_i bits
  have hn := neg_inf_i bits
  obtain ⟨t1, t2, t3, t4⟩ := tdiv_sentinels (half bits) (by omega)
  have c1 := ctor_finite bits 1 (by omega) (by omega)
  have cm := ctor_finite bits (-1) (by omega) (by omega)
  have w1 : wrapT bits 1 = 1 := wrapT_id (by omega) (by omega)
  have wm : wrapT bits (-1) = -1 := wrapT_id (by omega) (by omega)
  have d1 : op_div (inf bits) (inf bits) = ctor bits 1 := by
    rw [op_div_infinite_infinite _ _ (by omega) (Or.inl hp) (Or.inl hp), hp, T_div, t1, w1]
  have d2 : op_div (op_neg (inf bits)) (op_neg (inf bits)) = ctor bits 1 := by
    rw [op_div_infinite_infinite _ _ (by omega) (Or.inr hn) (Or.inr hn), hn, T_div, t2, w1]
  have d3 : op_div (inf bits) (op_neg (inf bits)) = ctor bits (-1) := by
    rw [op_div_infinite_infinite _ _ (by omega) (Or.inl hp) (Or.inr hn), hp, hn, T_div, t3, wm]
  have d4 : op_div (op_neg (inf bits)) (inf bits) = ctor bits (-1) := by
    rw [op_div_infinite_infinite _ _ (by omega) (Or.inr hn) (Or.inl hp), hp, hn, T_div, t4, wm]
  rw [d1, d2, d3, d4]
  exact ⟨c1.2, c1.2, cm.2, cm.2, c1.1, c1.1, cm.1, cm.1, finite_not_NaN _ c1.1,
    finite_not_NaN _ c1.1, finite_not_NaN _ cm.1, finite_not_NaN _ cm.1⟩

/-- Witness of C19 for `int` (32 bits). -/
theorem div_infinities_witness :
    3 ≤ 32 ∧ (op_div (inf 32) (inf 32)).get = 1
      ∧ (op_div (inf 32) (op_neg (inf 32))).get = -1 :=
  ⟨by decide, (div_infinities (by decide)).1, (div_infinities (by decide)).2.2.1⟩

theorem op_eq_comm {bits : Nat} (a b : safe_int bits) : op_eq b a = op_eq a b := by
  rw [Bool.eq_iff_iff, op_eq_iff, op_eq_iff]
  omega

/-- C20: for every pair `a`, `b`, the stored values of `a + b` and `b + a`
are equal. -/
theorem add_comm_stored {bits : Nat} (a b : safe_int bits) :
    (op_add a b).get = (op_add b a).get := by
  rw [safe_int.get, safe_int.get]
  by_cases hf : a.is_finite = true ∧ b.is_finite = true
  · rw [op_add_finite_i a b hf.1 hf.2, op_add_finite_i b a hf.2 hf.1, Int.add_comm]
  · have hc := op_eq_comm a b
    have he : op_eq a b = true → a.i_ = b.i_ := fun h => ((op_eq_iff a b).1 h).2.2
    unfold op_add
    rw [hc]
    cases h1 : op_eq a (NaN bits) <;> cases h2 : op_eq b (NaN bits) <;>
      cases h3 : a.is_finite <;> cases h4 : b.is_finite <;>
      cases h5 : op_eq a b <;> simp_all

/-! ## Native operations stay inside the underlying type -/

theorem T_chk_id {bits : Nat} {v : Int} (h1 : -half bits ≤ v) (h2 : v < half bits) :
    T_chk bits v = some v := by
  have h : IsT bits v := ⟨by rw [T_min]; exact h1, by rw [T_max]; omega⟩
  rw [T_chk, if_pos h]

theorem op_neg_chk_eq {bits : Nat} (x : safe_int bits)
    (hx : 1 - half bits ≤ x.i_ ∧ x.i_ ≤ half bits - 1) : op_neg_chk x = some (op_neg x) := by
  have hn : (x.i_ == NaN_ bits) = false := by
    rw [NaN_eq, beq_eq_false_iff_ne]; omega
  rw [op_neg_chk, op_neg, hn, T_chk_id (by omega) (by omega), wrapT_id (by omega) (by omega)]
  rfl

theorem op_preinc_chk_eq {bits : Nat} (x : safe_int bits)
    (hx : 1 - half bits ≤ x.i_ ∧ x.i_ ≤ half bits - 1) :
    op_preinc_chk x = some (op_preinc x) := by
  unfold op_preinc_chk op_preinc
  rw [pos_inf_eq, neg_inf_eq]
  split_ifs with h1 h2 h3
  · rfl
  · rfl
  · rfl
  · rw [T_chk_id (by omega) (by omega), wrapT_id (by omega) (by omega)]
    rfl

theorem op_predec_chk_eq {bits : Nat} (x : safe_int bits)
    (hx : 1 - half bits ≤ x.i_ ∧ x.i_ ≤ half bits - 1) :
    op_predec_chk x = some (op_predec x) := by
  unfold op_predec_chk op_predec
  rw [pos_inf_eq, neg_inf_eq]
  split_ifs with h1 h2 h3
  · rfl
  · rfl
  · rfl
  · rw [T_chk_id (by omega) (by omega), wrapT_id (by omega) (by omega)]
    rfl

theorem op_add_chk_finite {bits : Nat} (a b : safe_int bits)
    (ha : a.is_finite = true) (hb : b.is_finite = true) :
    op_add_chk a b = some (op_add a b) := by
  have ha1 := (is_finite_iff a).1 ha
  have hb1 := (is_finite_iff b).1 hb
  have han := finite_not_eq_NaN a ha
  have hbn := finite_not_eq_NaN b hb
  have hi := op_neg_chk_eq (inf bits) (inf_in_range bits)
  by_cases hb0 : 0 ≤ b.i_
  · have t1 : T_chk bits (half bits - 1 - b.i_) = some (half bits - 1 - b.i_) :=
      T_chk_id (by omega) (by omega)
    have w1 : wrapT bits (half bits - 1 - b.i_) = half bits - 1 - b.i_ :=
      wrapT_id (by omega) (by omega)
    have nb : ¬ b.i_ < 0 := by omega
    by_cases h1 : half bits - 1 - b.i_ < a.i_
    · simp [op_add, op_add_chk, sc_and, ha, hb, han, hbn, hb0, h1, t1, w1, pos_inf_eq]
    · have t3 : T_chk bits (a.i_ + b.i_) = some (a.i_ + b.i_) :=
        T_chk_id (by omega) (by omega)
      have w3 : wrapT bits (a.i_ + b.i_) = a.i_ + b.i_ := wrapT_id (by omega) (by omega)
      simp [op_add, op_add_chk, sc_and, ha, hb, han, hbn, hb0, h1, t1, w1, pos_inf_eq, nb, t3,
        w3]
  · have t2 : T_chk bits (1 - half bits - b.i_) = some (1 - half bits - b.i_) :=
      T_chk_id (by omega) (by omega)
    have w2 : wrapT bits (1 - half bits - b.i_) = 1 - half bits - b.i_ :=
      wrapT_id (by omega) (by omega)
    have nb : b.i_ < 0 := by omega
    by_cases h1 : a.i_ < 1 - half bits - b.i_
    · simp [op_add, op_add_chk, sc_and, ha, hb, han, hbn, hb0, h1, t2, w2, neg_inf_eq, nb, hi]
    · have t3 : T_chk bits (a.i_ + b.i_) = some (a.i_ + b.i_) :=
        T_chk_id (by omega) (by omega)
      have w3 : wrapT bits (a.i_ + b.i_) = a.i_ + b.i_ := wrapT_id (by omega) (by omega)
      simp [op_add, op_add_chk, sc_and, ha, hb, han, hbn, hb0, h1, t2, w2, neg_inf_eq, nb, t3,
        w3]

theorem op_add_chk_eq {bits : Nat} (a b : safe_int bits) :
    op_add_chk a b = some (op_add a b) := by
  cases ha : a.is_finite <;> cases hb : b.is_finite
  · simp only [op_add, op_add_chk, ha, hb, Bool.not_false, Bool.and_self, if_true]
    split_ifs <;> rfl
  · simp only [op_add, op_add_chk, ha, hb, Bool.not_false, Bool.not_true, Bool.and_self,
      Bool.and_false, Bool.false_eq_true, if_true, if_false]
    split_ifs <;> rfl
  · simp only [op_add, op_add_chk, ha, hb, Bool.not_false, Bool.not_true, Bool.and_self,
      Bool.and_false, Bool.false_and, Bool.false_eq_true, if_true, if_false]
    split_ifs <;> rfl
  · exact op_add_chk_finite a b ha hb

theorem T_div_chk_eq {bits : Nat} (a b : Int) (ha : 1 - half bits ≤ a ∧ a ≤ half bits - 1)
    (h0 : b ≠ 0) : T_div_chk bits a b = some (T_div bits a b) := by
  have hq := tdiv_natAbs_le a b
  have hc : ¬ (b = 0 ∨ (a = T_min bits ∧ b = -1)) := by
    rw [T_min]; omega
  rw [T_div_chk, if_neg hc, T_div, T_chk_id (by omega) (by omega),
    wrapT_id (by omega) (by omega)]

theorem op_div_chk_eq {bits : Nat} (a b : safe_int bits)
    (ha : 1 - half bits ≤ a.i_ ∧ a.i_ ≤ half bits - 1)
    (hb : 1 - half bits ≤ b.i_ ∧ b.i_ ≤ half bits - 1) :
    op_div_chk a b = some (op_div a b) := by
  have ez := op_eq_zero b
  unfold op_div_chk op_div
  rw [op_neg_chk_eq (inf bits) (inf_in_range bits), op_neg_chk_eq a ha, op_neg_chk_eq b hb]
  split_ifs with h1 h2 h3 h4 h5 h6 h7 h8 h9
  all_goals first
    | rfl
    | (have hz : op_eq b (ctor bits 0) = false := by
        cases hfa : a.is_finite <;> simp_all
       have h0 : b.i_ ≠ 0 := by
        rw [hz] at ez
        intro h
        rw [h] at ez
        exact absurd ez (by decide)
       rw [T_div_chk_eq a.i_ b.i_ ha h0]
       rfl)

/-- C17: for operands whose stored values lie in `[neg_inf_, pos_inf_]`, the
evaluation of unary `-`, `++`, `--`, `+`, binary `-` and `/` in which every
native operation is fallible succeeds and returns the result of the operator:
every native `pos_inf_ - right`, `neg_inf_ - right`, `left + right`, `-i_`,
`left / right`, `++i_`, `--i_` that is evaluated has a representable result,
and the native division is evaluated neither with a zero divisor nor as
`min(T) / -1`. -/
theorem native_ops_defined {bits : Nat} (a b : safe_int bits)
    (ha : neg_inf_ bits ≤ a.get ∧ a.get ≤ pos_inf_ bits)
    (hb : neg_inf_ bits ≤ b.get ∧ b.get ≤ pos_inf_ bits) :
    op_neg_chk a = some (op_neg a)
      ∧ op_preinc_chk a = some (op_preinc a)
      ∧ op_predec_chk a = some (op_predec a)
      ∧ op_add_chk a b = some (op_add a b)
      ∧ op_sub_chk a b = some (op_sub a b)
      ∧ op_div_chk a b = some (op_div a b) := by
  rw [safe_int.get, neg_inf_eq, pos_inf_eq] at ha hb
  refine ⟨op_neg_chk_eq a ha, op_preinc_chk_eq a ha, op_predec_chk_eq a ha,
    op_add_chk_eq a b, ?_, op_div_chk_eq a b ha hb⟩
  rw [op_sub_chk, op_neg_chk_eq b hb, op_sub]
  exact op_add_chk_eq a (op_neg b)

/-- Witness of C17 for `int` (32 bits) at `a = pos_inf_ - 1`, `b = -inf()`. -/
theorem native_ops_defined_witness :
    (neg_inf_ 32 ≤ (ctor 32 (pos_inf_ 32 - 1)).get ∧ (ctor 32 (pos_inf_ 32 - 1)).get ≤ pos_inf_ 32)
      ∧ (neg_inf_ 32 ≤ (op_neg (inf 32)).get ∧ (op_neg (inf 32)).get ≤ pos_inf_ 32)
      ∧ op_div_chk (ctor 32 (pos_inf_ 32 - 1)) (op_neg (inf 32))
          = some (op_div (ctor 32 (pos_inf_ 32 - 1)) (op_neg (inf 32))) :=
  ⟨by decide, by decide,
    (native_ops_defined (ctor 32 (pos_inf_ 32 - 1)) (op_neg (inf 32)) (by decide)
      (by decide)).2.2.2.2.2⟩

end SafeInt
